import Mathlib

/-!
Verification of the dfs repository (a small distributed filesystem):
shallow embedding of its path resolver, wire codec, membership store,
heartbeat initialization and name-node fan-out, with theorems settling
the specification claims.

Python strings and byte strings are modelled as `List Char` (one `Char`
per character or byte; all data relevant to the claims is ASCII).
-/

namespace DFS

/-- Model of a Python `str` (or `bytes`): a list of characters. -/
abbrev Str := List Char

/-- Python `s.split(sep)` for a one-character separator: consecutive
separators yield empty fields and `''.split(sep) == ['']`. -/
def splitOnChar (sep : Char) : Str → List Str
  | [] => [[]]
  | c :: cs =>
    if c = sep then [] :: splitOnChar sep cs
    else (splitOnChar sep cs).modifyHead (fun r => c :: r)

theorem splitOnChar_nil (sep : Char) : splitOnChar sep [] = [[]] := rfl

theorem splitOnChar_cons (sep c : Char) (cs : Str) :
    splitOnChar sep (c :: cs) =
      if c = sep then [] :: splitOnChar sep cs
      else (splitOnChar sep cs).modifyHead (fun r => c :: r) := rfl

theorem modifyHead_append_of_ne_nil {α : Type} (f : α → α) {l : List α} (t : List α)
    (h : l ≠ []) : (l ++ t).modifyHead f = l.modifyHead f ++ t := by
  cases l with
  | nil => exact absurd rfl h
  | cons a as => simp [List.modifyHead]

theorem splitOnChar_ne_nil (sep : Char) (s : Str) : splitOnChar sep s ≠ [] := by
  induction s with
  | nil => simp [splitOnChar]
  | cons c cs ih =>
    rw [splitOnChar_cons]
    by_cases hc : c = sep
    · simp [hc]
    · simp only [if_neg hc]
      cases h : splitOnChar sep cs with
      | nil => exact absurd h ih
      | cons r rs => simp [List.modifyHead]

theorem splitOnChar_of_not_mem {sep : Char} {s : Str} (h : sep ∉ s) :
    splitOnChar sep s = [s] := by
  induction s with
  | nil => rfl
  | cons c cs ih =>
    simp only [List.mem_cons, not_or] at h
    have hc : ¬ c = sep := fun he => h.1 he.symm
    rw [splitOnChar_cons, if_neg hc, ih h.2]
    simp [List.modifyHead]

theorem splitOnChar_append_sep (sep : Char) (a b : Str) :
    splitOnChar sep (a ++ sep :: b) = splitOnChar sep a ++ splitOnChar sep b := by
  induction a with
  | nil =>
    rw [List.nil_append, splitOnChar_cons, if_pos rfl, splitOnChar_nil]
    rfl
  | cons c cs ih =>
    rw [List.cons_append, splitOnChar_cons, splitOnChar_cons, ih]
    by_cases hc : c = sep
    · simp [hc]
    · rw [if_neg hc, if_neg hc,
        modifyHead_append_of_ne_nil _ _ (splitOnChar_ne_nil sep cs)]

theorem mem_of_mem_splitOnChar {sep : Char} {s x : Str} (hx : x ∈ splitOnChar sep s) :
    sep ∉ x := by
  induction s generalizing x with
  | nil =>
    simp only [splitOnChar, List.mem_singleton] at hx
    subst hx; simp
  | cons c cs ih =>
    rw [splitOnChar_cons] at hx
    by_cases hc : c = sep
    · rw [if_pos hc] at hx
      rcases List.mem_cons.mp hx with rfl | hx2
      · simp
      · exact ih hx2
    · rw [if_neg hc] at hx
      cases h : splitOnChar sep cs with
      | nil => exact absurd h (splitOnChar_ne_nil sep cs)
      | cons r rs =>
        rw [h] at hx
        simp only [List.modifyHead, List.mem_cons] at hx
        rcases hx with rfl | hx2
        · intro hm
          rcases List.mem_cons.mp hm with he | hm2
          · exact hc he.symm
          · exact ih (h ▸ List.mem_cons_self r rs) hm2
        · exact ih (h ▸ List.mem_cons.mpr (Or.inr hx2))

/-- Python `sep.join(parts)` for a one-character separator. -/
def joinSep (sep : Char) : List Str → Str
  | [] => []
  | [c] => c
  | c :: d :: cs => c ++ sep :: joinSep sep (d :: cs)

theorem joinSep_cons_cons (sep : Char) (c d : Str) (cs : List Str) :
    joinSep sep (c :: d :: cs) = c ++ sep :: joinSep sep (d :: cs) := rfl

theorem splitOnChar_joinSep {sep : Char} {l : List Str}
    (hl : l ≠ []) (h : ∀ x ∈ l, sep ∉ x) :
    splitOnChar sep (joinSep sep l) = l := by
  induction l with
  | nil => exact absurd rfl hl
  | cons c cs ih =>
    cases cs with
    | nil =>
      exact splitOnChar_of_not_mem (h c (List.mem_cons_self c []))
    | cons d ds =>
      rw [joinSep_cons_cons, splitOnChar_append_sep,
        splitOnChar_of_not_mem (h c (List.mem_cons_self c (d :: ds))),
        ih (by simp) (fun x hx => h x (List.mem_cons.mpr (Or.inr hx)))]
      rfl

theorem joinSep_append (sep : Char) {l1 l2 : List Str} (h1 : l1 ≠ []) (h2 : l2 ≠ []) :
    joinSep sep (l1 ++ l2) = joinSep sep l1 ++ sep :: joinSep sep l2 := by
  induction l1 with
  | nil => exact absurd rfl h1
  | cons c cs ih =>
    cases cs with
    | nil =>
      cases l2 with
      | nil => exact absurd rfl h2
      | cons d ds => rfl
    | cons d ds =>
      have ih2 := ih (by simp)
      calc joinSep sep ((c :: d :: ds) ++ l2)
          = c ++ sep :: joinSep sep ((d :: ds) ++ l2) := rfl
        _ = c ++ sep :: (joinSep sep (d :: ds) ++ sep :: joinSep sep l2) := by
            rw [ih2]
        _ = (c ++ sep :: joinSep sep (d :: ds)) ++ sep :: joinSep sep l2 := by
            simp
        _ = joinSep sep (c :: d :: ds) ++ sep :: joinSep sep l2 := rfl

theorem mem_joinSep {sep : Char} {l : List Str} {c : Char} (h : c ∈ joinSep sep l) :
    c = sep ∨ ∃ x ∈ l, c ∈ x := by
  induction l with
  | nil => simp [joinSep] at h
  | cons a cs ih =>
    cases cs with
    | nil =>
      exact Or.inr ⟨a, List.mem_cons_self a [], h⟩
    | cons d ds =>
      rw [joinSep_cons_cons] at h
      rcases List.mem_append.mp h with ha | hrest
      · exact Or.inr ⟨a, List.mem_cons_self a (d :: ds), ha⟩
      · rcases List.mem_cons.mp hrest with rfl | hm
        · exact Or.inl rfl
        · rcases ih hm with hs | ⟨x, hx, hc⟩
          · exact Or.inl hs
          · exact Or.inr ⟨x, List.mem_cons.mpr (Or.inr hx), hc⟩

/-! ## posixpath.normpath and os.path.join

`os.path.normpath` and `os.path.join` as used by `util.path_join`
(`return os.path.normpath(os.path.join(first, *args))`), translated from
the pure-Python `posixpath` implementation. -/

/-- The `'..'` path component. -/
def dotdot : Str := ['.', '.']

/-- The component loop of `posixpath.normpath`: `abs` is whether the path
had initial slashes, `acc` is `new_comps`. -/
def processComps (abs : Bool) (acc : List Str) : List Str → List Str
  | [] => acc
  | comp :: rest =>
    if comp = [] ∨ comp = ['.'] then processComps abs acc rest
    else if comp ≠ dotdot ∨ (abs = false ∧ acc = []) ∨ acc.getLast? = some dotdot then
      processComps abs (acc ++ [comp]) rest
    else if acc ≠ [] then processComps abs acc.dropLast rest
    else processComps abs acc rest

theorem processComps_cons (abs : Bool) (acc : List Str) (comp : Str) (rest : List Str) :
    processComps abs acc (comp :: rest) =
      if comp = [] ∨ comp = ['.'] then processComps abs acc rest
      else if comp ≠ dotdot ∨ (abs = false ∧ acc = []) ∨ acc.getLast? = some dotdot then
        processComps abs (acc ++ [comp]) rest
      else if acc ≠ [] then processComps abs acc.dropLast rest
      else processComps abs acc rest := rfl

/-- Leading slashes of a path as counted by `posixpath.normpath`
(POSIX keeps exactly two initial slashes special). -/
def initialSlashes (p : Str) : Nat :=
  if p.take 1 = ['/'] then
    if p.take 2 = ['/', '/'] ∧ ¬ p.take 3 = ['/', '/', '/'] then 2 else 1
  else 0

/-- `posixpath.normpath`: split on `'/'`, run the component loop, rebuild
with the initial slashes; an empty result is `'.'`. -/
def normpath (p : Str) : Str :=
  if p = [] then ['.']
  else if List.replicate (initialSlashes p) '/' ++
      joinSep '/' (processComps (initialSlashes p != 0) [] (splitOnChar '/' p)) = [] then
    ['.']
  else
    List.replicate (initialSlashes p) '/' ++
      joinSep '/' (processComps (initialSlashes p != 0) [] (splitOnChar '/' p))

/-- A component that survives normalization: nonempty, not `'.'`, and
slash-free. -/
def goodComp (c : Str) : Prop := c ≠ [] ∧ c ≠ ['.'] ∧ '/' ∉ c

/-- Relative normal forms start with a run of `'..'` components followed by
`'..'`-free components. -/
def RelRun (cs : List Str) : Prop :=
  ∃ m ds, cs = List.replicate m dotdot ++ ds ∧ dotdot ∉ ds

theorem mem_of_getLast?_eq {α : Type} {l : List α} {a : α} (h : l.getLast? = some a) :
    a ∈ l := by
  induction l with
  | nil => simp at h
  | cons b bs ih =>
    cases bs with
    | nil =>
      simp only [List.getLast?_singleton, Option.some.injEq] at h
      simp [h]
    | cons c cs =>
      rw [List.getLast?_cons_cons] at h
      exact List.mem_cons.mpr (Or.inr (ih h))

theorem processComps_append_empty (abs : Bool) (l : List Str) :
    ∀ acc, processComps abs acc (l ++ [[]]) = processComps abs acc l := by
  induction l with
  | nil => intro acc; rfl
  | cons comp rest ih =>
    intro acc
    rw [List.cons_append, processComps_cons, processComps_cons]
    split_ifs <;> apply ih

theorem processComps_skip_empties (abs : Bool) (acc : List Str) (k : Nat) (l : List Str) :
    processComps abs acc (List.replicate k [] ++ l) = processComps abs acc l := by
  induction k with
  | zero => rfl
  | succ n ih =>
    rw [List.replicate_succ, List.cons_append, processComps_cons]
    simp [ih]

theorem processComps_clean (abs : Bool) {l : List Str}
    (h : ∀ x ∈ l, goodComp x ∧ x ≠ dotdot) :
    ∀ acc, processComps abs acc l = acc ++ l := by
  induction l with
  | nil => intro acc; simp [processComps]
  | cons comp rest ih =>
    intro acc
    obtain ⟨⟨hne, hnd, _⟩, hdd⟩ := h comp (List.mem_cons_self _ _)
    rw [processComps_cons, if_neg (by simp [hne, hnd]), if_pos (Or.inl hdd),
      ih (fun x hx => h x (List.mem_cons.mpr (Or.inr hx)))]
    simp

theorem processComps_dotdot_run (ds : List Str) (k : Nat) :
    ∀ j, processComps false (List.replicate j dotdot) (List.replicate k dotdot ++ ds) =
      processComps false (List.replicate (j + k) dotdot) ds := by
  induction k with
  | zero => intro j; simp
  | succ n ih =>
    intro j
    rw [List.replicate_succ, List.cons_append, processComps_cons]
    have hcond : (dotdot : Str) ≠ dotdot ∨
        (false = false ∧ List.replicate j dotdot = ([] : List Str)) ∨
        (List.replicate j dotdot).getLast? = some dotdot := by
      cases j with
      | zero => exact Or.inr (Or.inl ⟨rfl, rfl⟩)
      | succ m =>
        refine Or.inr (Or.inr ?_)
        rw [List.replicate_succ' m, List.getLast?_concat]
    rw [if_neg (by decide), if_pos hcond, ← List.replicate_succ' j, ih (j + 1)]
    have : j + 1 + n = j + (n + 1) := by omega
    rw [this]

theorem processComps_abs_good {l : List Str} (hl : ∀ x ∈ l, '/' ∉ x) :
    ∀ acc, (∀ x ∈ acc, goodComp x ∧ x ≠ dotdot) →
      ∀ x ∈ processComps true acc l, goodComp x ∧ x ≠ dotdot := by
  induction l with
  | nil => intro acc hacc; simpa [processComps] using hacc
  | cons comp rest ih =>
    intro acc hacc
    have hl2 : ∀ x ∈ rest, '/' ∉ x := fun x hx => hl x (List.mem_cons.mpr (Or.inr hx))
    rw [processComps_cons]
    split_ifs with h1 h2 h3
    · exact ih hl2 acc hacc
    · refine ih hl2 (acc ++ [comp]) ?_
      intro x hx
      rcases List.mem_append.mp hx with hx1 | hx2
      · exact hacc x hx1
      · rw [List.mem_singleton] at hx2
        subst hx2
        push_neg at h1
        rcases h2 with hdd | ⟨hb, _⟩ | hlast
        · exact ⟨⟨h1.1, h1.2, hl x (List.mem_cons_self _ _)⟩, hdd⟩
        · exact absurd hb (by simp)
        · exact absurd rfl (hacc _ (mem_of_getLast?_eq hlast)).2
    · refine ih hl2 acc.dropLast ?_
      exact fun x hx => hacc x (List.dropLast_subset acc hx)
    · exact ih hl2 acc hacc

theorem processComps_rel_good {l : List Str} (hl : ∀ x ∈ l, '/' ∉ x) :
    ∀ acc, (∀ x ∈ acc, goodComp x) → RelRun acc →
      (∀ x ∈ processComps false acc l, goodComp x) ∧
        RelRun (processComps false acc l) := by
  induction l with
  | nil => intro acc hacc hrun; exact ⟨hacc, hrun⟩
  | cons comp rest ih =>
    intro acc hacc hrun
    have hl2 : ∀ x ∈ rest, '/' ∉ x := fun x hx => hl x (List.mem_cons.mpr (Or.inr hx))
    rw [processComps_cons]
    split_ifs with h1 h2 h3
    · exact ih hl2 acc hacc hrun
    · push_neg at h1
      have hgc : goodComp comp := ⟨h1.1, h1.2, hl comp (List.mem_cons_self _ _)⟩
      refine ih hl2 (acc ++ [comp]) ?_ ?_
      · intro x hx
        rcases List.mem_append.mp hx with hx1 | hx2
        · exact hacc x hx1
        · rw [List.mem_singleton] at hx2; subst hx2; exact hgc
      · obtain ⟨m, ds, hacc2, hds⟩ := hrun
        by_cases hdd : comp = dotdot
        · subst hdd
          rcases h2 with hc | ⟨_, hnil⟩ | hlast
          · exact absurd rfl hc
          · subst hacc2
            refine ⟨1, [], ?_, by simp⟩
            have : List.replicate m dotdot ++ ds = ([] : List Str) := hnil
            rw [this]
            rfl
          · have hds_nil : ds = [] := by
              by_contra hne
              have := List.getLast?_append_of_ne_nil (List.replicate m dotdot) hne
              rw [hacc2, this] at hlast
              exact hds (mem_of_getLast?_eq hlast)
            subst hds_nil
            refine ⟨m + 1, [], ?_, by simp⟩
            rw [hacc2, List.append_nil, ← List.replicate_succ' m]
            simp
        · exact ⟨m, ds ++ [comp], by rw [hacc2, List.append_assoc], by
            intro hmem
            rcases List.mem_append.mp hmem with hmm | hmm
            · exact hds hmm
            · rw [List.mem_singleton] at hmm; exact hdd hmm.symm⟩
    · refine ih hl2 acc.dropLast ?_ ?_
      · exact fun x hx => hacc x (List.dropLast_subset acc hx)
      · obtain ⟨m, ds, hacc2, hds⟩ := hrun
        push_neg at h2
        have hds_ne : ds ≠ [] := by
          intro hnil
          subst hnil
          rw [List.append_nil] at hacc2
          subst hacc2
          cases m with
          | zero => exact h3 rfl
          | succ m2 =>
            have := h2.2.2
            rw [List.replicate_succ' m2, List.getLast?_concat] at this
            exact this rfl
        refine ⟨m, ds.dropLast, ?_, ?_⟩
        · rw [hacc2, List.dropLast_append_of_ne_nil _ hds_ne]
        · exact fun hmem => hds (List.dropLast_subset ds hmem)
    · exact ih hl2 acc hacc hrun

theorem initialSlashes_le_two (p : Str) : initialSlashes p ≤ 2 := by
  unfold initialSlashes
  split_ifs <;> omega

theorem take_one_ne_slash {r : Str} (hr : r.head? ≠ some '/') : ¬ r.take 1 = ['/'] := by
  cases r with
  | nil => simp
  | cons a as =>
    simp only [List.take_succ_cons, List.take_zero]
    intro h
    have ha : a = '/' := by
      simpa using h
    exact hr (by simp [ha])

theorem initialSlashes_replicate {k : Nat} (hk : k ≤ 2) {r : Str}
    (hr : r.head? ≠ some '/') :
    initialSlashes (List.replicate k '/' ++ r) = k := by
  obtain (rfl | rfl | rfl) : k = 0 ∨ k = 1 ∨ k = 2 := by omega
  · rw [List.replicate_zero, List.nil_append]
    unfold initialSlashes
    rw [if_neg (take_one_ne_slash hr)]
  · show initialSlashes ('/' :: r) = 1
    unfold initialSlashes
    rw [if_pos (by simp), if_neg]
    intro hcond
    have h2 : ('/' :: r).take 2 = '/' :: r.take 1 := by simp
    rw [h2] at hcond
    exact take_one_ne_slash hr (by simpa using hcond.1)
  · show initialSlashes ('/' :: '/' :: r) = 2
    unfold initialSlashes
    rw [if_pos (by simp), if_pos]
    refine ⟨by simp, ?_⟩
    have h3 : ('/' :: '/' :: r).take 3 = '/' :: '/' :: r.take 1 := by simp
    rw [h3]
    intro hcond
    exact take_one_ne_slash hr (by simpa using hcond)

theorem joinSep_ne_nil {cs : List Str} (hcs : cs ≠ []) (hgood : ∀ x ∈ cs, goodComp x) :
    joinSep '/' cs ≠ [] := by
  cases cs with
  | nil => exact absurd rfl hcs
  | cons c rest =>
    obtain ⟨hne, -, -⟩ := hgood c (List.mem_cons_self _ _)
    cases rest with
    | nil => exact hne
    | cons d ds =>
      rw [joinSep_cons_cons]
      cases c with
      | nil => exact absurd rfl hne
      | cons a as => simp

theorem joinSep_head_ne_slash {cs : List Str} (hgood : ∀ x ∈ cs, goodComp x) :
    (joinSep '/' cs).head? ≠ some '/' := by
  cases cs with
  | nil => simp [joinSep]
  | cons c rest =>
    obtain ⟨hne, -, hns⟩ := hgood c (List.mem_cons_self _ _)
    have hx : ∃ t, joinSep '/' (c :: rest) = c ++ t := by
      cases rest with
      | nil => exact ⟨[], (List.append_nil c).symm⟩
      | cons d ds => exact ⟨'/' :: joinSep '/' (d :: ds), rfl⟩
    obtain ⟨t, ht⟩ := hx
    rw [ht]
    cases c with
    | nil => exact absurd rfl hne
    | cons a as =>
      rw [List.cons_append, List.head?_cons]
      intro h
      injection h with ha
      exact hns (by simp [ha])

theorem joinSep_getLast_ne_slash {cs : List Str} (hgood : ∀ x ∈ cs, goodComp x) :
    (joinSep '/' cs).getLast? ≠ some '/' := by
  induction cs with
  | nil => simp [joinSep]
  | cons c rest ih =>
    obtain ⟨hne, -, hns⟩ := hgood c (List.mem_cons_self _ _)
    cases rest with
    | nil =>
      intro h
      exact hns (mem_of_getLast?_eq h)
    | cons d ds =>
      rw [joinSep_cons_cons]
      have hrest : ∀ x ∈ d :: ds, goodComp x :=
        fun x hx => hgood x (List.mem_cons.mpr (Or.inr hx))
      have hjoin_ne : joinSep '/' (d :: ds) ≠ [] := joinSep_ne_nil (by simp) hrest
      rw [List.getLast?_append_of_ne_nil c (by simp)]
      cases hj : joinSep '/' (d :: ds) with
      | nil => exact absurd hj hjoin_ne
      | cons b bs =>
        rw [List.getLast?_cons_cons, ← hj]
        exact ih hrest

theorem dropWhile_replicate_slash (k : Nat) (r : Str) :
    (List.replicate k '/' ++ r).dropWhile (fun x => x = '/') =
      r.dropWhile (fun x => x = '/') := by
  induction k with
  | zero => rfl
  | succ n ih =>
    rw [List.replicate_succ, List.cons_append, List.dropWhile_cons]
    simp [ih]

theorem dropWhile_eq_self_of_head {l : Str} (h : l.head? ≠ some '/') :
    l.dropWhile (fun x => x = '/') = l := by
  cases l with
  | nil => rfl
  | cons a as =>
    have ha : ¬ a = '/' := fun h2 => h (by rw [h2]; rfl)
    simp [List.dropWhile_cons, ha]

theorem getLast?_dropWhile (q : Char → Bool) (l : Str) (h : l.dropWhile q ≠ []) :
    (l.dropWhile q).getLast? = l.getLast? := by
  induction l with
  | nil => simp at h
  | cons a as ih =>
    rw [List.dropWhile_cons] at h ⊢
    by_cases hq : q a = true
    · rw [if_pos hq] at h ⊢
      have has : as ≠ [] := by
        intro he
        rw [he] at h
        simp at h
      rw [ih h]
      cases as with
      | nil => exact absurd rfl has
      | cons b bs => rw [List.getLast?_cons_cons]
    · rw [if_neg hq] at h ⊢

theorem head?_dropWhile_ne {l : Str} {a : Char}
    (h : (l.dropWhile (fun x => x = '/')).head? = some a) : a ≠ '/' := by
  induction l with
  | nil => simp at h
  | cons b bs ih =>
    rw [List.dropWhile_cons] at h
    by_cases hb : b = '/'
    · rw [if_pos (by simp [hb])] at h
      exact ih h
    · rw [if_neg (by simp [hb])] at h
      rw [List.head?_cons] at h
      injection h with h2
      rw [← h2]
      exact hb

/-- Python `s.strip(c)` for a one-character argument: drop the character
from both ends. -/
def pyStrip (c : Char) (s : Str) : Str :=
  ((s.dropWhile (fun x => x = c)).reverse.dropWhile (fun x => x = c)).reverse

/-- Python `s.rstrip(c)` for a one-character argument. -/
def pyRstrip (c : Char) (s : Str) : Str :=
  (s.reverse.dropWhile (fun x => x = c)).reverse

theorem pyStrip_head_ne_slash (s : Str) : (pyStrip '/' s).head? ≠ some '/' := by
  unfold pyStrip
  intro h
  rw [List.head?_reverse] at h
  by_cases hres :
      ((s.dropWhile (fun x => x = '/')).reverse.dropWhile (fun x => x = '/')) = []
  · rw [hres] at h
    simp at h
  · rw [getLast?_dropWhile _ _ hres, List.getLast?_reverse] at h
    exact head?_dropWhile_ne h rfl

theorem pyStrip_canonical {k : Nat} {cs : List Str} (hgood : ∀ x ∈ cs, goodComp x) :
    pyStrip '/' (List.replicate k '/' ++ joinSep '/' cs) = joinSep '/' cs := by
  unfold pyStrip
  rw [dropWhile_replicate_slash]
  by_cases hcs : cs = []
  · subst hcs
    simp [joinSep]
  · have h2 : (joinSep '/' cs).reverse.head? ≠ some '/' := by
      rw [List.head?_reverse]
      exact joinSep_getLast_ne_slash hgood
    rw [dropWhile_eq_self_of_head (joinSep_head_ne_slash hgood),
      dropWhile_eq_self_of_head h2, List.reverse_reverse]

theorem splitOnChar_replicate_slash (k : Nat) (r : Str) :
    splitOnChar '/' (List.replicate k '/' ++ r) =
      List.replicate k [] ++ splitOnChar '/' r := by
  induction k with
  | zero => rfl
  | succ n ih =>
    rw [List.replicate_succ, List.cons_append, splitOnChar_cons, if_pos rfl, ih,
      List.replicate_succ]
    rfl

theorem processComps_eval (b : Bool) {cs : List Str} (hgood : ∀ x ∈ cs, goodComp x)
    (hrel : b = false → RelRun cs) (habs : b = true → dotdot ∉ cs) :
    processComps b [] cs = cs := by
  cases b
  · obtain ⟨m, ds, hcs, hds⟩ := hrel rfl
    subst hcs
    have hclean : ∀ x ∈ ds, goodComp x ∧ x ≠ dotdot := by
      intro x hx
      refine ⟨hgood x (List.mem_append.mpr (Or.inr hx)), ?_⟩
      intro he
      exact hds (he ▸ hx)
    have h0 := processComps_dotdot_run ds m 0
    rw [show List.replicate 0 dotdot = ([] : List Str) from rfl] at h0
    rw [h0, Nat.zero_add, processComps_clean false hclean (List.replicate m dotdot)]
  · have hclean : ∀ x ∈ cs, goodComp x ∧ x ≠ dotdot := by
      intro x hx
      refine ⟨hgood x hx, fun he => habs rfl (he ▸ hx)⟩
    rw [processComps_clean true hclean []]
    rfl

theorem normpath_canonical {k : Nat} {cs : List Str} (hk : k ≤ 2)
    (hgood : ∀ x ∈ cs, goodComp x)
    (hrel : k = 0 → cs ≠ [] ∧ RelRun cs)
    (habs : k ≠ 0 → dotdot ∉ cs) :
    normpath (List.replicate k '/' ++ joinSep '/' cs) =
      List.replicate k '/' ++ joinSep '/' cs := by
  have hp_ne : List.replicate k '/' ++ joinSep '/' cs ≠ [] := by
    cases k with
    | zero =>
      obtain ⟨hcs, -⟩ := hrel rfl
      simpa using joinSep_ne_nil hcs hgood
    | succ n => simp [List.replicate_succ]
  have hslash : initialSlashes (List.replicate k '/' ++ joinSep '/' cs) = k :=
    initialSlashes_replicate hk (joinSep_head_ne_slash hgood)
  simp only [normpath, if_neg hp_ne, hslash, splitOnChar_replicate_slash,
    processComps_skip_empties]
  by_cases hcs : cs = []
  · subst hcs
    have hk0 : k ≠ 0 := fun h => (hrel h).1 rfl
    have hcomp : processComps (k != 0) [] (splitOnChar '/' (joinSep '/' [])) = [] := by
      rw [show joinSep '/' ([] : List Str) = [] from rfl,
        show splitOnChar '/' ([] : Str) = [[]] from rfl, processComps_cons]
      simp [processComps]
    rw [hcomp, if_neg hp_ne]
  · rw [splitOnChar_joinSep hcs (fun x hx => (hgood x hx).2.2),
      processComps_eval (k != 0) hgood
        (fun hb => (hrel (by simpa using hb)).2)
        (fun hb => habs (by simpa using hb)),
      if_neg hp_ne]

theorem normpath_canonical_slash {k : Nat} {cs : List Str} (hk : k ≤ 2)
    (hgood : ∀ x ∈ cs, goodComp x) (hcs : cs ≠ [])
    (hrel : k = 0 → RelRun cs) (habs : k ≠ 0 → dotdot ∉ cs) :
    normpath (List.replicate k '/' ++ joinSep '/' cs ++ ['/']) =
      List.replicate k '/' ++ joinSep '/' cs := by
  rw [List.append_assoc]
  have hjoin_ne : joinSep '/' cs ≠ [] := joinSep_ne_nil hcs hgood
  have hne : List.replicate k '/' ++ (joinSep '/' cs ++ ['/']) ≠ [] := by
    simp
  have hhead : (joinSep '/' cs ++ ['/']).head? ≠ some '/' := by
    rw [List.head?_append_of_ne_nil _ hjoin_ne]
    exact joinSep_head_ne_slash hgood
  have hslash := initialSlashes_replicate hk hhead
  have hout_ne : List.replicate k '/' ++ joinSep '/' cs ≠ [] := by
    cases k with
    | zero => simpa using hjoin_ne
    | succ n => simp [List.replicate_succ]
  simp only [normpath, if_neg hne, hslash, splitOnChar_replicate_slash,
    processComps_skip_empties]
  rw [show (joinSep '/' cs ++ ['/'] : Str) = joinSep '/' cs ++ '/' :: [] from rfl,
    splitOnChar_append_sep, splitOnChar_joinSep hcs (fun x hx => (hgood x hx).2.2),
    show splitOnChar '/' ([] : Str) = [[]] from rfl, processComps_append_empty,
    processComps_eval (k != 0) hgood
      (fun hb => hrel (by simpa using hb))
      (fun hb => habs (by simpa using hb)),
    if_neg hout_ne]

theorem normpath_shape (p : Str) :
    (normpath p = ['.'] ∧ initialSlashes p = 0) ∨
    ∃ k cs, k = initialSlashes p ∧ (∀ x ∈ cs, goodComp x) ∧
      (k = 0 → cs ≠ [] ∧ RelRun cs) ∧ (k ≠ 0 → dotdot ∉ cs) ∧
      normpath p = List.replicate k '/' ++ joinSep '/' cs := by
  by_cases hp : p = []
  · subst hp
    exact Or.inl ⟨rfl, rfl⟩
  have hsplit_noslash : ∀ x ∈ splitOnChar '/' p, '/' ∉ x :=
    fun x hx => mem_of_mem_splitOnChar hx
  by_cases hk0 : initialSlashes p = 0
  · have hb : (initialSlashes p != 0) = false := by simp [hk0]
    have hrel := processComps_rel_good hsplit_noslash [] (by simp)
      ⟨0, [], rfl, by simp⟩
    by_cases hcnil : processComps false [] (splitOnChar '/' p) = []
    · refine Or.inl ⟨?_, hk0⟩
      have hcond : List.replicate 0 '/' ++ joinSep '/' ([] : List Str) = [] := by
        simp [joinSep]
      simp only [normpath, if_neg hp, hk0, show ((0 : Nat) != 0) = false from rfl,
        hcnil]
      rw [if_pos hcond]
    · refine Or.inr ⟨0, processComps false [] (splitOnChar '/' p), hk0.symm,
        hrel.1, fun _ => ⟨hcnil, hrel.2⟩, fun h => absurd rfl h, ?_⟩
      have hout : List.replicate 0 '/' ++
          joinSep '/' (processComps false [] (splitOnChar '/' p)) ≠ [] := by
        simpa using joinSep_ne_nil hcnil hrel.1
      simp only [normpath, if_neg hp, hk0, show ((0 : Nat) != 0) = false from rfl]
      rw [if_neg (by simpa using hout)]
  · have hb : (initialSlashes p != 0) = true := by simpa using hk0
    have habs2 := processComps_abs_good hsplit_noslash [] (by simp)
    refine Or.inr ⟨initialSlashes p, processComps true [] (splitOnChar '/' p), rfl,
      fun x hx => (habs2 x hx).1, fun h => absurd h hk0,
      fun _ hmem => (habs2 _ hmem).2 rfl, ?_⟩
    have hout : List.replicate (initialSlashes p) '/' ++
        joinSep '/' (processComps true [] (splitOnChar '/' p)) ≠ [] := by
      cases hsl : initialSlashes p with
      | zero => exact absurd hsl hk0
      | succ n => simp [List.replicate_succ]
    simp only [normpath, if_neg hp, hb]
    rw [if_neg hout]

/-- One step of `posixpath.join`: an absolute right part replaces the left,
otherwise the parts are glued with a `'/'` unless one is already there. -/
def joinTwo (path b : Str) : Str :=
  if b.head? = some '/' then b
  else if path = [] ∨ path.getLast? = some '/' then path ++ b
  else path ++ '/' :: b

/-- `os.path.join(first, *rest)`. -/
def osJoin (first : Str) (rest : List Str) : Str := rest.foldl joinTwo first

/-- `util.path_join`: `os.path.normpath(os.path.join(first, *args))`. -/
def path_join (first : Str) (rest : List Str) : Str := normpath (osJoin first rest)

/-- `DataNode._path_to_fs`: resolve a logical path against the stored
filesystem root and the current working directory,
`path_join(fs_root, path_join('/', workdir.strip('/'), path).strip('/'))`. -/
def pathToFs (fsRoot workdir p : Str) : Str :=
  path_join fsRoot [pyStrip '/' (path_join ['/'] [pyStrip '/' workdir, p])]

theorem joinTwo_head_slash {s : Str} (hs : s.head? = some '/') (b : Str) :
    (joinTwo s b).head? = some '/' := by
  unfold joinTwo
  split_ifs with h1 h2
  · exact h1
  · cases s with
    | nil => simp at hs
    | cons a as => simpa using hs
  · cases s with
    | nil => simp at h2
    | cons a as => simpa using hs

/-- The inner join of `_path_to_fs` always yields a path that starts
with a slash. -/
theorem osJoin_inner_head (w p : Str) :
    (osJoin ['/'] [pyStrip '/' w, p]).head? = some '/' := by
  show (joinTwo (joinTwo ['/'] (pyStrip '/' w)) p).head? = some '/'
  apply joinTwo_head_slash
  apply joinTwo_head_slash
  rfl

/-- The inner `path_join('/', workdir.strip('/'), path)` of `_path_to_fs`
normalizes to one or two slashes followed by good, `'..'`-free components. -/
theorem inner_resolved (w p : Str) :
    ∃ k cs, k ≤ 2 ∧ k ≠ 0 ∧ (∀ x ∈ cs, goodComp x) ∧ dotdot ∉ cs ∧
      path_join ['/'] [pyStrip '/' w, p] = List.replicate k '/' ++ joinSep '/' cs := by
  have hhead := osJoin_inner_head w p
  have hpos : initialSlashes (osJoin ['/'] [pyStrip '/' w, p]) ≠ 0 := by
    unfold initialSlashes
    cases hq : osJoin ['/'] [pyStrip '/' w, p] with
    | nil => rw [hq] at hhead; simp at hhead
    | cons a as =>
      rw [hq] at hhead
      have ha : a = '/' := by simpa using hhead
      rw [if_pos (by simp [ha])]
      split_ifs <;> omega
  rcases normpath_shape (osJoin ['/'] [pyStrip '/' w, p]) with ⟨-, hzero⟩ | h
  · exact absurd hzero hpos
  · obtain ⟨k, cs, hkeq, hgood, -, habs, heq⟩ := h
    refine ⟨k, cs, ?_, ?_, hgood, ?_, heq⟩
    · rw [hkeq]; exact initialSlashes_le_two _
    · rw [hkeq]; exact hpos
    · exact habs (hkeq ▸ hpos)

/-- Characterization of a normpath-fixed root: it is `'.'` or has the
normal form produced by `normpath`. -/
theorem fixed_root_shape {fsRoot : Str} (h1 : normpath fsRoot = fsRoot)
    (h2 : fsRoot ≠ ['.']) :
    ∃ k2 cs2, k2 ≤ 2 ∧ (∀ x ∈ cs2, goodComp x) ∧
      (k2 = 0 → cs2 ≠ [] ∧ RelRun cs2) ∧ (k2 ≠ 0 → dotdot ∉ cs2) ∧
      fsRoot = List.replicate k2 '/' ++ joinSep '/' cs2 := by
  rcases normpath_shape fsRoot with ⟨hdot, -⟩ | h
  · exact absurd (h1 ▸ hdot) h2
  · obtain ⟨k, cs, hkeq, hgood, hrel, habs, heq⟩ := h
    exact ⟨k, cs, hkeq ▸ initialSlashes_le_two _, hgood, hrel, habs, h1 ▸ heq⟩

/-- Joining an empty relative part onto a normpath-fixed root and
re-normalizing gives the root back (`os.path.join(root, '')` appends a
slash which `normpath` folds away). -/
theorem normpath_joinTwo_nil {fsRoot : Str} (h1 : normpath fsRoot = fsRoot)
    (h2 : fsRoot ≠ ['.']) :
    normpath (joinTwo fsRoot []) = fsRoot := by
  unfold joinTwo
  rw [if_neg (by simp)]
  by_cases hcond : fsRoot = [] ∨ fsRoot.getLast? = some '/'
  · rw [if_pos hcond, List.append_nil, h1]
  · rw [if_neg hcond]
    push_neg at hcond
    obtain ⟨k2, cs2, hk2, hgood2, hrel2, habs2, heq2⟩ := fixed_root_shape h1 h2
    have hcs2 : cs2 ≠ [] := by
      intro hnil
      subst hnil
      rw [show joinSep '/' ([] : List Str) = [] from rfl, List.append_nil] at heq2
      cases k2 with
      | zero => exact hcond.1 (by simpa using heq2)
      | succ n =>
        apply hcond.2
        rw [heq2, List.replicate_succ' n, List.getLast?_concat]
    have := normpath_canonical_slash hk2 hgood2 hcs2
      (fun hz => ((hrel2 hz).2)) habs2
    rw [heq2]
    rw [show (List.replicate k2 '/' ++ joinSep '/' cs2) ++ '/' :: ([] : Str) =
      List.replicate k2 '/' ++ joinSep '/' cs2 ++ ['/'] from by simp]
    exact this

/-- Claim C1 core: the resolved host path extends the stored root, for a
root that is fixed by normalization. -/
theorem pathToFs_confined (fsRoot w p : Str)
    (h1 : normpath fsRoot = fsRoot) (h2 : fsRoot ≠ ['.']) :
    ∃ tail, pathToFs fsRoot w p = fsRoot ++ tail := by
  obtain ⟨k, cs, hk, hk0, hgood, hnodd, hinner⟩ := inner_resolved w p
  show ∃ tail, path_join fsRoot [pyStrip '/' (path_join ['/'] [pyStrip '/' w, p])] =
    fsRoot ++ tail
  rw [hinner, pyStrip_canonical hgood]
  show ∃ tail, normpath (joinTwo fsRoot (joinSep '/' cs)) = fsRoot ++ tail
  obtain ⟨k2, cs2, hk2, hgood2, hrel2, habs2, heq2⟩ := fixed_root_shape h1 h2
  by_cases hcs : cs = []
  · subst hcs
    rw [show joinSep '/' ([] : List Str) = [] from rfl]
    exact ⟨[], by rw [normpath_joinTwo_nil h1 h2, List.append_nil]⟩
  have hrel_ne : joinSep '/' cs ≠ [] := joinSep_ne_nil hcs hgood
  have hrel_head : (joinSep '/' cs).head? ≠ some '/' := joinSep_head_ne_slash hgood
  unfold joinTwo
  rw [if_neg hrel_head]
  by_cases hcond : fsRoot = [] ∨ fsRoot.getLast? = some '/'
  · rw [if_pos hcond]
    rcases hcond with hnil | hlast
    · exact absurd (hnil ▸ h1) (by simp [normpath])
    · -- root is all slashes: cs2 = []
      have hcs2 : cs2 = [] := by
        by_contra hne
        have hjne : joinSep '/' cs2 ≠ [] := joinSep_ne_nil hne hgood2
        rw [heq2, List.getLast?_append_of_ne_nil _ hjne] at hlast
        exact joinSep_getLast_ne_slash hgood2 hlast
      subst hcs2
      rw [show joinSep '/' ([] : List Str) = [] from rfl, List.append_nil] at heq2
      have hk2ne : k2 ≠ 0 := by
        intro hz
        subst hz
        rw [heq2] at hlast
        simp at hlast
      refine ⟨joinSep '/' cs, ?_⟩
      rw [heq2]
      exact normpath_canonical hk2 hgood (fun hz => absurd hz hk2ne)
        (fun _ => hnodd)
  · rw [if_neg hcond]
    push_neg at hcond
    have hcs2 : cs2 ≠ [] := by
      intro hnil
      subst hnil
      rw [show joinSep '/' ([] : List Str) = [] from rfl, List.append_nil] at heq2
      cases k2 with
      | zero => exact hcond.1 (by simpa using heq2)
      | succ n =>
        apply hcond.2
        rw [heq2, List.replicate_succ' n, List.getLast?_concat]
    have hjoin_all : fsRoot ++ '/' :: joinSep '/' cs =
        List.replicate k2 '/' ++ joinSep '/' (cs2 ++ cs) := by
      rw [heq2, joinSep_append '/' hcs2 hcs, List.append_assoc]
    have hgood_all : ∀ x ∈ cs2 ++ cs, goodComp x := by
      intro x hx
      rcases List.mem_append.mp hx with hx2 | hx1
      · exact hgood2 x hx2
      · exact hgood x hx1
    have hrel_all : k2 = 0 → cs2 ++ cs ≠ [] ∧ RelRun (cs2 ++ cs) := by
      intro hz
      obtain ⟨-, m, ds, hds_eq, hds⟩ := hrel2 hz
      refine ⟨by simp [hcs2], m, ds ++ cs, ?_, ?_⟩
      · rw [hds_eq, List.append_assoc]
      · intro hmem
        rcases List.mem_append.mp hmem with hm1 | hm2
        · exact hds hm1
        · exact hnodd hm2
    have habs_all : k2 ≠ 0 → dotdot ∉ cs2 ++ cs := by
      intro hz hmem
      rcases List.mem_append.mp hmem with hm1 | hm2
      · exact habs2 hz hm1
      · exact hnodd hm2
    refine ⟨'/' :: joinSep '/' cs, ?_⟩
    rw [hjoin_all, normpath_canonical hk2 hgood_all hrel_all habs_all, ← hjoin_all]

/-! ## DataNode state and filesystem operations -/

/-- Host-filesystem facts a `DataNode` operation consults (`os.path.exists`,
`os.path.isdir`, `len(os.listdir(...))`). -/
structure FS where
  pathExists : Str → Bool
  isDir : Str → Bool
  numEntries : Str → Nat

/-- The path-relevant state of a `DataNode`: the stored root
(`self._fs_root`) and the logical working directory. -/
structure DNState where
  fsRoot : Str
  workdir : Str
deriving DecidableEq

/-- `DataNode.__init__` path state: `self._fs_root = fs_root.rstrip('/')`,
`self._workdir = '/'`. -/
def dataNodeInit (fsRootArg : Str) : DNState :=
  ⟨pyRstrip '/' fsRootArg, ['/']⟩

inductive CmdErr
  | notFound
  | notDir
  | cannotRemoveRoot
  | notEmpty
deriving DecidableEq

deriving instance DecidableEq for Except

/-- `DataNode.rmdir`: existence, directory and root checks, then the
emptiness check unless `force`; on success `shutil.rmtree(fs_path)` removes
the returned host path. -/
def rmdir (fs : FS) (st : DNState) (p : Str) (force : Bool) : Except CmdErr Str :=
  if ¬ fs.pathExists (pathToFs st.fsRoot st.workdir p) then .error .notFound
  else if ¬ fs.isDir (pathToFs st.fsRoot st.workdir p) then .error .notDir
  else if pathToFs st.fsRoot st.workdir p = st.fsRoot then .error .cannotRemoveRoot
  else if 0 < fs.numEntries (pathToFs st.fsRoot st.workdir p) ∧ force = false then
    .error .notEmpty
  else .ok (pathToFs st.fsRoot st.workdir p)

/-- `DataNode.mkfs`: recreate the root empty and reset the working
directory to `/`. -/
def mkfs (st : DNState) : DNState := { st with workdir := ['/'] }

/-- Resolving the logical root `'/'` gives back the stored root, when the
stored root is fixed by normalization. -/
theorem pathToFs_root_slash (fsRoot w : Str)
    (h1 : normpath fsRoot = fsRoot) (h2 : fsRoot ≠ ['.']) :
    pathToFs fsRoot w ['/'] = fsRoot := by
  have hj : ∀ s : Str, joinTwo s ['/'] = ['/'] := by
    intro s
    unfold joinTwo
    exact if_pos rfl
  show normpath (joinTwo fsRoot (pyStrip '/' (normpath
    (joinTwo (joinTwo ['/'] (pyStrip '/' w)) ['/'])))) = fsRoot
  rw [hj, show normpath (['/'] : Str) = ['/'] from by decide,
    show pyStrip '/' (['/'] : Str) = [] from by decide]
  exact normpath_joinTwo_nil h1 h2

/-- Claim C1: for every logical input path and every workdir value, the
host path computed by `_path_to_fs` extends the stored `fs_root` (stated
for any stored root that is a fixed point of `normpath` other than `'.'`,
which covers every normalized root directory). -/
theorem c1_root_confinement (fsRoot w p : Str)
    (h1 : normpath fsRoot = fsRoot) (h2 : fsRoot ≠ ['.']) :
    ∃ tail, pathToFs fsRoot w p = fsRoot ++ tail :=
  pathToFs_confined fsRoot w p h1 h2

theorem c1_root_confinement_witness :
    normpath ("/data".toList) = "/data".toList ∧ "/data".toList ≠ ['.'] ∧
      ∃ tail, pathToFs "/data".toList "/w".toList "../../../etc/passwd".toList =
        "/data".toList ++ tail :=
  ⟨by decide, by decide,
    c1_root_confinement "/data".toList "/w".toList "../../../etc/passwd".toList
      (by decide) (by decide)⟩

/-- Host filesystem for the C9 counterexample: the host working directory
`"."` exists and is a directory with three entries. -/
def c9fs : FS :=
  ⟨fun s => s = ".".toList, fun s => s = ".".toList, fun _ => 3⟩

/-- Claim C9 counterexample: with `DFS_FS_ROOT='/'` the stored root is the
empty string, `rmdir('/', force=True)` resolves to the host path `"."`,
which differs from the stored root, so the root check is bypassed and the
removal succeeds. -/
theorem c9_counterexample :
    (dataNodeInit "/".toList).fsRoot = [] ∧
    rmdir c9fs (dataNodeInit "/".toList) "/".toList true = .ok ".".toList := by
  decide

/-- Claim C9 (amended): for a stored root fixed by `normpath` (and not
`'.'`), `rmdir("/")` fails in every filesystem state, with or without
force, and `mkfs` succeeds leaving `workdir = "/"`. -/
theorem c9_root_unremovable (fs : FS) (st : DNState) (force : Bool)
    (h1 : normpath st.fsRoot = st.fsRoot) (h2 : st.fsRoot ≠ ['.']) :
    (∃ e, rmdir fs st "/".toList force = .error e) ∧
      (mkfs st).workdir = "/".toList := by
  have hpath : pathToFs st.fsRoot st.workdir "/".toList = st.fsRoot :=
    pathToFs_root_slash st.fsRoot st.workdir h1 h2
  constructor
  · unfold rmdir
    rw [hpath]
    by_cases hc1 : fs.pathExists st.fsRoot = true
    · rw [if_neg (not_not_intro hc1)]
      by_cases hc2 : fs.isDir st.fsRoot = true
      · rw [if_neg (not_not_intro hc2), if_pos rfl]
        exact ⟨.cannotRemoveRoot, rfl⟩
      · rw [if_pos hc2]
        exact ⟨.notDir, rfl⟩
    · rw [if_pos hc1]
      exact ⟨.notFound, rfl⟩
  · rfl

theorem c9_root_unremovable_witness :
    normpath ((dataNodeInit "/data/".toList).fsRoot) =
        (dataNodeInit "/data/".toList).fsRoot ∧
      (dataNodeInit "/data/".toList).fsRoot ≠ ['.'] ∧
      ((∃ e, rmdir c9fs (dataNodeInit "/data/".toList) "/".toList true = .error e) ∧
        (mkfs (dataNodeInit "/data/".toList)).workdir = "/".toList) :=
  ⟨by decide, by decide,
    c9_root_unremovable c9fs (dataNodeInit "/data/".toList) true
      (by decide) (by decide)⟩

/-! ## The wire codec (`util.deserialize` and friends)

Request bodies are modelled as `Str` (one `Char` per byte; the paths and
tokens relevant to the claims are ASCII, so UTF-8 decoding is the
identity). -/

inductive Frame
  | unit
  | path (p : Str)
  | pathBlob (p : Str) (blob : Str)
  | pathStr (p s : Str)
  | pathFlag (p : Str)
deriving DecidableEq

inductive DecodeErr
  | nameErrorUndefined
  | stopIteration
deriving DecidableEq

/-- The terminator scan of `util.deserialize`: consume bytes until the
first `' '` (two-field form) or NUL (blob form); returns the consumed
prefix and, when a terminator was hit, whether it was the NUL together
with the remaining bytes. -/
def scanFrame : Str → Str × Option (Bool × Str)
  | [] => ([], none)
  | c :: rest =>
    if c = ' ' then ([], some (false, rest))
    else if c = Char.ofNat 0 then ([], some (true, rest))
    else (c :: (scanFrame rest).1, (scanFrame rest).2)

/-- `util.deserialize`.  After a space, the code runs
`b = bytes([next(it)])` (StopIteration on an exhausted iterator) and, when
that byte is `'!'`, `nb = bytes([nnext(it)])` where `nnext` is an
undefined name, so every two-field frame whose second field starts with
`'!'` raises NameError; the `(path, True)` result is unreachable. -/
def deserialize (body : Str) : Except DecodeErr Frame :=
  match scanFrame body with
  | (path, none) => if path = [] then .ok .unit else .ok (.path path)
  | (path, some (true, rest)) => .ok (.pathBlob path rest)
  | (path, some (false, rest)) =>
    match rest with
    | [] => .error .stopIteration
    | c :: rest2 =>
      if c = '!' then .error .nameErrorUndefined
      else .ok (.pathStr path (c :: rest2))

/-- `HttpDataNode.rmdir` request body: `path + ('!' if force else '')`. -/
def rmdirFrame (p : Str) (force : Bool) : Str :=
  p ++ (if force then ['!'] else [])

/-- Claim C4: the client frame for `rmdir(p, force=True)` has no space
before the `'!'`, so the generic deserializer reads it back as the single
path `p + "!"`; and even the documented `"p !"` frame makes the
deserializer hit the undefined name `nnext` (NameError) instead of
returning `(p, True)`. -/
theorem c4_force_flag_broken :
    rmdirFrame "/d".toList true = "/d!".toList ∧
    deserialize (rmdirFrame "/d".toList true) = .ok (.path "/d!".toList) ∧
    deserialize "/d !".toList = .error .nameErrorUndefined ∧
    deserialize "/d !".toList ≠ .ok (.pathFlag "/d".toList) := by
  refine ⟨rfl, ?_, ?_, ?_⟩ <;> decide

inductive JoinErr
  | valueError
deriving DecidableEq

/-- The URL built by `util.deserialize_join`:
`'http://' + remote_ip + ':' + port + '/'`. -/
def mkNodeUrl (host port : Str) : Str :=
  "http://".toList ++ host ++ ':' :: port ++ ['/']

/-- The tail of `util.deserialize_join` after token counting: if the port
token contains a colon it must split into exactly `host:port`, which
replaces the request source address. -/
def joinUrlOf (pu : Option Str) (port nodeId remoteIp : Str) :
    Except JoinErr (Option Str × Str × Str) :=
  if ':' ∈ port then
    match splitOnChar ':' port with
    | [host, p2] => .ok (pu, mkNodeUrl host p2, nodeId)
    | _ => .error .valueError
  else .ok (pu, mkNodeUrl remoteIp port, nodeId)

/-- `util.deserialize_join`: split the body on spaces; three tokens are
`public_url port id`, two are `port id`, anything else is a ValueError
from tuple unpacking. -/
def deserializeJoin (body remoteIp : Str) :
    Except JoinErr (Option Str × Str × Str) :=
  match splitOnChar ' ' body with
  | [publicUrl, port, nodeId] => joinUrlOf (some publicUrl) port nodeId remoteIp
  | [port, nodeId] => joinUrlOf none port nodeId remoteIp
  | _ => .error .valueError

/-- Claim C5: a join body `"port id"` without a host token yields exactly
`http://{source_ip}:{port}/` with no public URL and the given id; with a
`"host:port"` token the host from the body replaces the source address. -/
theorem c5_join_ip_substitution (port nodeId srcIp host : Str)
    (hp1 : ' ' ∉ port) (hp2 : ':' ∉ port) (hid : ' ' ∉ nodeId)
    (hh1 : ' ' ∉ host) (hh2 : ':' ∉ host) :
    deserializeJoin (port ++ ' ' :: nodeId) srcIp =
      .ok (none, mkNodeUrl srcIp port, nodeId) ∧
    deserializeJoin (host ++ ':' :: port ++ ' ' :: nodeId) srcIp =
      .ok (none, mkNodeUrl host port, nodeId) := by
  constructor
  · unfold deserializeJoin
    rw [splitOnChar_append_sep, splitOnChar_of_not_mem hp1,
      splitOnChar_of_not_mem hid]
    show joinUrlOf none port nodeId srcIp = _
    unfold joinUrlOf
    rw [if_neg hp2]
  · have hassoc : host ++ ':' :: port ++ ' ' :: nodeId =
        (host ++ ':' :: port) ++ ' ' :: nodeId := by simp
    have hmem : ' ' ∉ host ++ ':' :: port := by
      intro hm
      rcases List.mem_append.mp hm with h1 | h1
      · exact hh1 h1
      · rcases List.mem_cons.mp h1 with h2 | h2
        · exact absurd h2 (by decide)
        · exact hp1 h2
    unfold deserializeJoin
    rw [hassoc, splitOnChar_append_sep, splitOnChar_of_not_mem hmem,
      splitOnChar_of_not_mem hid]
    show joinUrlOf none (host ++ ':' :: port) nodeId srcIp = _
    unfold joinUrlOf
    rw [if_pos (List.mem_append.mpr (Or.inr (List.mem_cons_self _ _))),
      splitOnChar_append_sep, splitOnChar_of_not_mem hh2,
      splitOnChar_of_not_mem hp2]
    rfl

theorem c5_join_ip_substitution_witness :
    (' ' ∉ "8180".toList ∧ ':' ∉ "8180".toList ∧ ' ' ∉ "abc123".toList ∧
      ' ' ∉ "192.168.0.7".toList ∧ ':' ∉ "192.168.0.7".toList) ∧
    deserializeJoin ("8180".toList ++ ' ' :: "abc123".toList) "10.0.0.5".toList =
      .ok (none, mkNodeUrl "10.0.0.5".toList "8180".toList, "abc123".toList) ∧
    deserializeJoin ("192.168.0.7".toList ++ ':' :: "8180".toList ++
        ' ' :: "abc123".toList) "10.0.0.5".toList =
      .ok (none, mkNodeUrl "192.168.0.7".toList "8180".toList, "abc123".toList) :=
  ⟨⟨by decide, by decide, by decide, by decide, by decide⟩,
    (c5_join_ip_substitution "8180".toList "abc123".toList "10.0.0.5".toList
      "192.168.0.7".toList (by decide) (by decide) (by decide) (by decide)
      (by decide)).1,
    (c5_join_ip_substitution "8180".toList "abc123".toList "10.0.0.5".toList
      "192.168.0.7".toList (by decide) (by decide) (by decide) (by decide)
      (by decide)).2⟩

/-! ## The membership store (`members.py`)

A record of `MemberDB` is a dict with the four fields below; the store
itself is a Python dict keyed by `id`, modelled as a list of records in
insertion order (dict assignment to an existing key replaces the value in
place, otherwise appends). -/

def NEW : Str := "new".toList
def ALIVE : Str := "alive".toList
def DEAD : Str := "dead".toList

structure MemberRec where
  id : Str
  url : Str
  publicUrl : Option Str
  status : Str
deriving DecidableEq

/-- Python dict assignment `records[r.id] = r`: replace in place when the
key exists, append otherwise. -/
def dictInsert (rs : List MemberRec) (r : MemberRec) : List MemberRec :=
  if r.id ∈ rs.map MemberRec.id then
    rs.map (fun x => if x.id = r.id then r else x)
  else rs ++ [r]

/-- `records[i]` as an option (first record with the id). -/
def lookupRec (rs : List MemberRec) (i : Str) : Option MemberRec :=
  rs.find? (fun x => x.id = i)

/-- `MemberDB.create`: build the record, store it under its id
(unconditionally), sync, and return it. -/
def create (rs : List MemberRec) (i u : Str) (pu : Option Str) (st : Str) :
    List MemberRec × MemberRec :=
  (dictInsert rs ⟨i, u, pu, st⟩, ⟨i, u, pu, st⟩)

inductive DBErr
  | keyError
deriving DecidableEq

/-- `MemberDB.update`: `self._records[record['id']].update(record)` —
KeyError when the id is absent, otherwise all four fields of the stored
record are replaced; then sync. -/
def dbUpdate (rs : List MemberRec) (r : MemberRec) : Except DBErr (List MemberRec) :=
  if r.id ∈ rs.map MemberRec.id then
    .ok (rs.map (fun x => if x.id = r.id then r else x))
  else .error .keyError

/-- A `Member` property setter: assign the field on the handle, then
`save()` builds the full four-field record and calls `update`. -/
def setMemberStatus (rs : List MemberRec) (m : MemberRec) (v : Str) :
    Except DBErr (List MemberRec) :=
  dbUpdate rs { m with status := v }

def setMemberUrl (rs : List MemberRec) (m : MemberRec) (v : Str) :
    Except DBErr (List MemberRec) :=
  dbUpdate rs { m with url := v }

def setMemberPublicUrl (rs : List MemberRec) (m : MemberRec) (v : Option Str) :
    Except DBErr (List MemberRec) :=
  dbUpdate rs { m with publicUrl := v }

def setMemberId (rs : List MemberRec) (m : MemberRec) (v : Str) :
    Except DBErr (List MemberRec) :=
  dbUpdate rs { m with id := v }

/-! ### Persistence: TAB-separated rows with CRLF terminators

`csv.DictWriter(dialect='excel-tab')` writes the four fields joined by
TABs, rows terminated by `"\r\n"`; a `None` field is written as the empty
string.  `csv.DictReader` splits them back, yielding plain strings (never
`None`); `MemberDB.__init__` then rebuilds the id-keyed dict.  Fields of
real records (ids, URLs, statuses) contain no TAB, CR, LF or quote
character, so the minimal-quoting behaviour of the csv module is the
identity; rows of that shape are the only ones the writer produces, and
the reader model covers exactly them. -/

/-- What the csv writer emits for an optional field: `None` becomes the
empty string. -/
def encodeField : Option Str → Str
  | none => []
  | some s => s

/-- One TSV row of the membership file. -/
def rowTSV (r : MemberRec) : Str :=
  joinSep '\t' [r.id, r.url, encodeField r.publicUrl, r.status]

/-- `MemberDB.sync`: the full table, one CRLF-terminated row per record. -/
def writeTSV : List MemberRec → Str
  | [] => []
  | r :: rest => rowTSV r ++ '\r' :: '\n' :: writeTSV rest

/-- Split a file into CRLF-separated lines. -/
def splitCRLF : Str → List Str
  | [] => [[]]
  | [c] => [[c]]
  | c1 :: c2 :: rest =>
    if c1 = '\r' ∧ c2 = '\n' then [] :: splitCRLF rest
    else
      match splitCRLF (c2 :: rest) with
      | [] => [[c1]]
      | r :: rs => (c1 :: r) :: rs

/-- Parse one four-field TSV row back into a record; the `public_url`
field comes back as a (possibly empty) string, never `None`. -/
def parseRow (line : Str) : Option MemberRec :=
  match splitOnChar '\t' line with
  | [a, b, c, d] => some ⟨a, b, some c, d⟩
  | _ => none

/-- `MemberDB.__init__` on an existing file: read the rows (the csv reader
skips blank lines) and rebuild the id-keyed dict. -/
def reopen (file : Str) : List MemberRec :=
  (((splitCRLF file).filter (fun l => l ≠ [])).filterMap parseRow).foldl dictInsert []

/-- The record a restart yields for a stored record: `public_url` comes
back as its csv encoding. -/
def encodeRec (r : MemberRec) : MemberRec :=
  { r with publicUrl := some (encodeField r.publicUrl) }

/-- A field value the csv dialect writes verbatim. -/
def safeField (s : Str) : Prop :=
  '\t' ∉ s ∧ '\r' ∉ s ∧ '\n' ∉ s ∧ '"' ∉ s

def safeRec (r : MemberRec) : Prop :=
  safeField r.id ∧ safeField r.url ∧
    (∀ s, r.publicUrl = some s → safeField s) ∧ safeField r.status

instance (s : Str) : Decidable (safeField s) := by
  unfold safeField
  infer_instance

instance decidableSafePu (o : Option Str) : Decidable (∀ s, o = some s → safeField s) :=
  match o with
  | none => .isTrue (fun _ h => by cases h)
  | some t =>
    decidable_of_iff (safeField t)
      ⟨fun h s hs => by injection hs with h2; exact h2 ▸ h, fun h => h t rfl⟩

instance (r : MemberRec) : Decidable (safeRec r) := by
  unfold safeRec
  infer_instance

/-! ### Store lemmas -/

theorem find?_replace_self (rs : List MemberRec) (r : MemberRec)
    (h : r.id ∈ rs.map MemberRec.id) :
    (rs.map (fun x => if x.id = r.id then r else x)).find?
      (fun x => x.id = r.id) = some r := by
  induction rs with
  | nil => simp at h
  | cons a as ih =>
    by_cases ha : a.id = r.id
    · simp only [List.map_cons, if_pos ha]
      rw [List.find?_cons_of_pos _ (by simp)]
    · simp only [List.map_cons, if_neg ha]
      rw [List.find?_cons_of_neg _ (by simpa using ha)]
      apply ih
      rw [List.map_cons] at h
      rcases List.mem_cons.mp h with h1 | h1
      · exact absurd h1.symm ha
      · exact h1

theorem find?_replace_other (rs : List MemberRec) (r : MemberRec) {j : Str}
    (h : j ≠ r.id) :
    (rs.map (fun x => if x.id = r.id then r else x)).find? (fun x => x.id = j) =
      rs.find? (fun x => x.id = j) := by
  induction rs with
  | nil => rfl
  | cons a as ih =>
    by_cases ha : a.id = r.id
    · simp only [List.map_cons, if_pos ha]
      rw [List.find?_cons_of_neg _ (by simpa using fun he => h he.symm),
        List.find?_cons_of_neg _ (by simpa using fun he => h (ha ▸ he).symm)]
      exact ih
    · simp only [List.map_cons, if_neg ha]
      by_cases haj : a.id = j
      · rw [List.find?_cons_of_pos _ (by simpa using haj),
          List.find?_cons_of_pos _ (by simpa using haj)]
      · rw [List.find?_cons_of_neg _ (by simpa using haj),
          List.find?_cons_of_neg _ (by simpa using haj)]
        exact ih

theorem find?_append_last (rs : List MemberRec) (r : MemberRec)
    (h : r.id ∉ rs.map MemberRec.id) :
    (rs ++ [r]).find? (fun x => x.id = r.id) = some r := by
  induction rs with
  | nil => rw [List.nil_append, List.find?_cons_of_pos _ (by simp)]
  | cons a as ih =>
    have ha : a.id ≠ r.id := fun he => h (by simp [← he])
    rw [List.cons_append, List.find?_cons_of_neg _ (by simpa using ha)]
    exact ih (fun hm => h (by rw [List.map_cons]; exact List.mem_cons.mpr (Or.inr hm)))

theorem find?_append_other (rs : List MemberRec) (r : MemberRec) {j : Str}
    (h : j ≠ r.id) :
    (rs ++ [r]).find? (fun x => x.id = j) = rs.find? (fun x => x.id = j) := by
  induction rs with
  | nil =>
    rw [List.nil_append, List.find?_cons_of_neg _ (by simpa using fun he => h he.symm)]
  | cons a as ih =>
    by_cases haj : a.id = j
    · rw [List.cons_append, List.find?_cons_of_pos _ (by simpa using haj),
        List.find?_cons_of_pos _ (by simpa using haj)]
    · rw [List.cons_append, List.find?_cons_of_neg _ (by simpa using haj),
        List.find?_cons_of_neg _ (by simpa using haj)]
      exact ih

theorem lookup_dictInsert_self (rs : List MemberRec) (r : MemberRec) :
    lookupRec (dictInsert rs r) r.id = some r := by
  unfold dictInsert lookupRec
  by_cases h : r.id ∈ rs.map MemberRec.id
  · rw [if_pos h]
    exact find?_replace_self rs r h
  · rw [if_neg h]
    exact find?_append_last rs r h

theorem lookup_dictInsert_other (rs : List MemberRec) (r : MemberRec) {j : Str}
    (h : j ≠ r.id) :
    lookupRec (dictInsert rs r) j = lookupRec rs j := by
  unfold dictInsert lookupRec
  by_cases hm : r.id ∈ rs.map MemberRec.id
  · rw [if_pos hm]
    exact find?_replace_other rs r h
  · rw [if_neg hm]
    exact find?_append_other rs r h

/-- Claim C6 counterexample: `create` on an id already in the store does
not raise; it silently replaces the stored record. -/
theorem c6_counterexample :
    (create [⟨"abc123".toList, "http://u1/".toList, none, NEW⟩]
        "abc123".toList "http://u2/".toList none NEW).1 =
      [⟨"abc123".toList, "http://u2/".toList, none, NEW⟩] ∧
    lookupRec (create [⟨"abc123".toList, "http://u1/".toList, none, NEW⟩]
        "abc123".toList "http://u2/".toList none NEW).1 "abc123".toList ≠
      some ⟨"abc123".toList, "http://u1/".toList, none, NEW⟩ := by
  decide

/-- Claim C6 (amended): a second `create` with an existing id is not
rejected — it succeeds and overwrites the stored record for that id
(`add_node` behaves likewise), leaving every other id unchanged. -/
theorem c6_create_overwrites (rs : List MemberRec) (i u : Str)
    (pu : Option Str) (st : Str) :
    lookupRec (create rs i u pu st).1 i = some ⟨i, u, pu, st⟩ ∧
    ∀ j, j ≠ i → lookupRec (create rs i u pu st).1 j = lookupRec rs j :=
  ⟨lookup_dictInsert_self rs ⟨i, u, pu, st⟩,
    fun _ hj => lookup_dictInsert_other rs ⟨i, u, pu, st⟩ hj⟩

theorem c6_create_overwrites_witness :
    lookupRec (create [⟨"abc123".toList, "http://u1/".toList, none, NEW⟩]
        "abc123".toList "http://u2/".toList none NEW).1 "abc123".toList =
      some ⟨"abc123".toList, "http://u2/".toList, none, NEW⟩ ∧
    ("zzz999".toList ≠ "abc123".toList ∧
      lookupRec (create [⟨"abc123".toList, "http://u1/".toList, none, NEW⟩]
          "abc123".toList "http://u2/".toList none NEW).1 "zzz999".toList =
        lookupRec [⟨"abc123".toList, "http://u1/".toList, none, NEW⟩]
          "zzz999".toList) :=
  ⟨(c6_create_overwrites [⟨"abc123".toList, "http://u1/".toList, none, NEW⟩]
      "abc123".toList "http://u2/".toList none NEW).1,
    by decide,
    (c6_create_overwrites [⟨"abc123".toList, "http://u1/".toList, none, NEW⟩]
      "abc123".toList "http://u2/".toList none NEW).2 "zzz999".toList (by decide)⟩

/-! ### Durability lemmas -/

/-- The store together with its on-disk image; every mutating operation
ends with `sync()`, which rewrites the whole file from the in-memory
map. -/
structure DBState where
  records : List MemberRec
  disk : Str
deriving DecidableEq

/-- `MemberDB.create` at the state level: insert, then sync. -/
def createS (st : DBState) (i u : Str) (pu : Option Str) (stt : Str) :
    DBState × MemberRec :=
  (⟨dictInsert st.records ⟨i, u, pu, stt⟩,
    writeTSV (dictInsert st.records ⟨i, u, pu, stt⟩)⟩, ⟨i, u, pu, stt⟩)

/-- `MemberDB.update` at the state level: patch, then sync. -/
def updateS (st : DBState) (r : MemberRec) : Except DBErr DBState :=
  match dbUpdate st.records r with
  | .ok rs2 => .ok ⟨rs2, writeTSV rs2⟩
  | .error e => .error e

/-- A `status` setter at the state level. -/
def setStatusS (st : DBState) (m : MemberRec) (v : Str) : Except DBErr DBState :=
  updateS st { m with status := v }

theorem splitCRLF_cons_cons (c1 c2 : Char) (rest : Str) :
    splitCRLF (c1 :: c2 :: rest) =
      if c1 = '\r' ∧ c2 = '\n' then [] :: splitCRLF rest
      else
        match splitCRLF (c2 :: rest) with
        | [] => [[c1]]
        | r :: rs => (c1 :: r) :: rs := rfl

theorem splitCRLF_ne_nil : ∀ s : Str, splitCRLF s ≠ []
  | [] => by simp [splitCRLF]
  | [c] => by simp [splitCRLF]
  | c1 :: c2 :: rest => by
    rw [splitCRLF_cons_cons]
    split_ifs
    · simp
    · cases h : splitCRLF (c2 :: rest) with
      | nil => exact absurd h (splitCRLF_ne_nil (c2 :: rest))
      | cons r rs => simp

theorem splitCRLF_append_crlf {row : Str} (h : '\r' ∉ row) (t : Str) :
    splitCRLF (row ++ '\r' :: '\n' :: t) = row :: splitCRLF t := by
  induction row with
  | nil =>
    rw [List.nil_append, splitCRLF_cons_cons, if_pos ⟨rfl, rfl⟩]
  | cons c cs ih =>
    have hc : ¬ (c = '\r') := fun he => h (by simp [he])
    have hcs : '\r' ∉ cs := fun hm => h (List.mem_cons.mpr (Or.inr hm))
    cases cs with
    | nil =>
      rw [List.cons_append, List.nil_append, splitCRLF_cons_cons,
        if_neg (fun hand => hc hand.1)]
      rw [show splitCRLF ('\r' :: '\n' :: t) = [] :: splitCRLF t from by
        rw [splitCRLF_cons_cons, if_pos ⟨rfl, rfl⟩]]
    | cons d ds =>
      have hgoal : (c :: d :: ds : Str) ++ '\r' :: '\n' :: t =
          c :: d :: (ds ++ '\r' :: '\n' :: t) := rfl
      rw [hgoal, splitCRLF_cons_cons, if_neg (fun hand => hc hand.1)]
      have hih : splitCRLF (d :: (ds ++ '\r' :: '\n' :: t)) =
          (d :: ds) :: splitCRLF t := ih hcs
      rw [hih]

theorem mem_rowTSV {r : MemberRec} {c : Char} (hc : c ∈ rowTSV r) :
    c = '\t' ∨ c ∈ r.id ∨ c ∈ r.url ∨ c ∈ encodeField r.publicUrl ∨
      c ∈ r.status := by
  rcases mem_joinSep hc with h | ⟨x, hx, hcx⟩
  · exact Or.inl h
  · simp only [List.mem_cons] at hx
    rcases hx with rfl | rfl | rfl | rfl | h0
    · exact Or.inr (Or.inl hcx)
    · exact Or.inr (Or.inr (Or.inl hcx))
    · exact Or.inr (Or.inr (Or.inr (Or.inl hcx)))
    · exact Or.inr (Or.inr (Or.inr (Or.inr hcx)))
    · cases h0

theorem cr_not_mem_rowTSV {r : MemberRec} (h : safeRec r) : '\r' ∉ rowTSV r := by
  intro hc
  obtain ⟨h1, h2, h3, h4⟩ := h
  rcases mem_rowTSV hc with hh | hh | hh | hh | hh
  · exact absurd hh (by decide)
  · exact h1.2.1 hh
  · exact h2.2.1 hh
  · cases hpu : r.publicUrl with
    | none => rw [hpu] at hh; cases hh
    | some s => rw [hpu] at hh; exact (h3 s hpu).2.1 hh
  · exact h4.2.1 hh

theorem tab_not_mem_fields {r : MemberRec} (h : safeRec r) :
    ∀ x ∈ [r.id, r.url, encodeField r.publicUrl, r.status], '\t' ∉ x := by
  obtain ⟨h1, h2, h3, h4⟩ := h
  intro x hx
  simp only [List.mem_cons] at hx
  rcases hx with rfl | rfl | rfl | rfl | h0
  · exact h1.1
  · exact h2.1
  · cases hpu : r.publicUrl with
    | none => simp [encodeField]
    | some s => exact (h3 s hpu).1
  · exact h4.1
  · cases h0

theorem rowTSV_ne_nil (r : MemberRec) : rowTSV r ≠ [] := by
  unfold rowTSV
  rw [joinSep_cons_cons]
  cases h : r.id with
  | nil => simp
  | cons a as => simp

theorem parseRow_rowTSV {r : MemberRec} (h : safeRec r) :
    parseRow (rowTSV r) = some (encodeRec r) := by
  unfold parseRow rowTSV
  rw [splitOnChar_joinSep (by simp) (tab_not_mem_fields h)]
  rfl

theorem splitCRLF_writeTSV {rs : List MemberRec} (h : ∀ r ∈ rs, safeRec r) :
    splitCRLF (writeTSV rs) = rs.map rowTSV ++ [[]] := by
  induction rs with
  | nil => rfl
  | cons r rest ih =>
    show splitCRLF (rowTSV r ++ '\r' :: '\n' :: writeTSV rest) = _
    rw [splitCRLF_append_crlf (cr_not_mem_rowTSV (h r (List.mem_cons_self _ _))),
      ih (fun x hx => h x (List.mem_cons.mpr (Or.inr hx)))]
    rfl

theorem foldl_dictInsert_disjoint :
    ∀ (l acc : List MemberRec),
      (∀ r ∈ l, r.id ∉ acc.map MemberRec.id) → (l.map MemberRec.id).Nodup →
      l.foldl dictInsert acc = acc ++ l := by
  intro l
  induction l with
  | nil => intro acc _ _; simp
  | cons r rest ih =>
    intro acc hdis hnd
    have hr : r.id ∉ acc.map MemberRec.id := hdis r (List.mem_cons_self _ _)
    show List.foldl dictInsert (dictInsert acc r) rest = acc ++ r :: rest
    rw [show dictInsert acc r = acc ++ [r] from by unfold dictInsert; rw [if_neg hr]]
    rw [List.map_cons, List.nodup_cons] at hnd
    rw [ih (acc ++ [r]) ?_ hnd.2]
    · simp
    · intro x hx
      rw [List.map_append]
      intro hmem
      rcases List.mem_append.mp hmem with h1 | h1
      · exact hdis x (List.mem_cons.mpr (Or.inr hx)) h1
      · rw [List.map_cons, List.map_nil, List.mem_singleton] at h1
        exact hnd.1 (h1 ▸ List.mem_map_of_mem MemberRec.id hx)

theorem filterMap_parse_rows {rs : List MemberRec} (h : ∀ r ∈ rs, safeRec r) :
    (rs.map rowTSV).filterMap parseRow = rs.map encodeRec := by
  induction rs with
  | nil => rfl
  | cons r rest ih =>
    rw [List.map_cons, List.filterMap_cons,
      parseRow_rowTSV (h r (List.mem_cons_self _ _)),
      ih (fun x hx => h x (List.mem_cons.mpr (Or.inr hx))), List.map_cons]

/-- Restarting from the file written by `sync` yields the records with
`public_url` replaced by its csv encoding. -/
theorem reopen_writeTSV {rs : List MemberRec} (hsafe : ∀ r ∈ rs, safeRec r)
    (hids : (rs.map MemberRec.id).Nodup) :
    reopen (writeTSV rs) = rs.map encodeRec := by
  unfold reopen
  rw [splitCRLF_writeTSV hsafe, List.filter_append]
  rw [show List.filter (fun l => l ≠ []) [[]] = ([] : List Str) from by decide]
  rw [List.append_nil]
  rw [List.filter_eq_self.mpr (fun a ha => by
    rcases List.mem_map.mp ha with ⟨r, -, hr⟩
    simpa using hr ▸ rowTSV_ne_nil r)]
  rw [filterMap_parse_rows hsafe]
  rw [foldl_dictInsert_disjoint (rs.map encodeRec) [] (by simp) ?_]
  · rw [List.nil_append]
  · rw [List.map_map]
    have : MemberRec.id ∘ encodeRec = MemberRec.id := rfl
    rw [this]
    exact hids

/-- Claim C8 counterexample: a record created with `public_url=None` is
read back after restart with `public_url` equal to the empty string, so
the restarted records differ from the originals. -/
theorem c8_counterexample :
    reopen (writeTSV [⟨"abc123".toList, "http://u/".toList, none, NEW⟩]) =
      [⟨"abc123".toList, "http://u/".toList, some [], NEW⟩] ∧
    reopen (writeTSV [⟨"abc123".toList, "http://u/".toList, none, NEW⟩]) ≠
      [⟨"abc123".toList, "http://u/".toList, none, NEW⟩] := by
  decide

/-- Claim C8 (amended): after `create`, `update` or a field setter the
on-disk TSV is exactly the serialization of the in-memory map, and
restarting from that file yields the same records up to the csv encoding
of the absent `public_url`: a record stored with `public_url=None` comes
back with `public_url=''`; records whose `public_url` is a string
round-trip unchanged. -/
theorem c8_membership_durability (st : DBState) (i u : Str) (pu : Option Str)
    (stt : Str) (m : MemberRec) (v : Str) (rs : List MemberRec)
    (hsafe : ∀ r ∈ rs, safeRec r) (hids : (rs.map MemberRec.id).Nodup) :
    ((createS st i u pu stt).1).disk = writeTSV ((createS st i u pu stt).1).records ∧
    (∀ st2, updateS st m = .ok st2 → st2.disk = writeTSV st2.records) ∧
    (∀ st2, setStatusS st m v = .ok st2 → st2.disk = writeTSV st2.records) ∧
    reopen (writeTSV rs) = rs.map encodeRec ∧
    (∀ r ∈ rs, r.publicUrl ≠ none → encodeRec r = r) := by
  refine ⟨rfl, ?_, ?_, reopen_writeTSV hsafe hids, ?_⟩
  · intro st2 h2
    unfold updateS at h2
    cases h3 : dbUpdate st.records m with
    | ok rs2 =>
      rw [h3] at h2
      injection h2 with h4
      rw [← h4]
    | error e =>
      rw [h3] at h2
      cases h2
  · intro st2 h2
    unfold setStatusS updateS at h2
    cases h3 : dbUpdate st.records { m with status := v } with
    | ok rs2 =>
      rw [h3] at h2
      injection h2 with h4
      rw [← h4]
    | error e =>
      rw [h3] at h2
      cases h2
  · intro r _ hpu
    cases h5 : r.publicUrl with
    | none => exact absurd h5 hpu
    | some s =>
      unfold encodeRec
      rw [h5, show encodeField (some s) = s from rfl, ← h5]

theorem c8_membership_durability_witness :
    (∀ r ∈ [⟨"abc123".toList, "http://u/".toList,
        some "http://p/".toList, ALIVE⟩], safeRec r) ∧
    (([⟨"abc123".toList, "http://u/".toList, some "http://p/".toList,
        ALIVE⟩].map MemberRec.id).Nodup) ∧
    reopen (writeTSV [⟨"abc123".toList, "http://u/".toList,
        some "http://p/".toList, ALIVE⟩]) =
      [⟨"abc123".toList, "http://u/".toList, some "http://p/".toList,
        ALIVE⟩].map encodeRec :=
  ⟨by decide, by decide,
    (c8_membership_durability ⟨[], []⟩ [] [] none [] ⟨[], [], none, []⟩ []
      [⟨"abc123".toList, "http://u/".toList, some "http://p/".toList, ALIVE⟩]
      (by decide) (by decide)).2.2.2.1⟩

/-! ### Setter frame (C10) -/

theorem dbUpdate_ok_frame (rs : List MemberRec) (r : MemberRec)
    (hmem : r.id ∈ rs.map MemberRec.id) :
    ∃ rs2, dbUpdate rs r = .ok rs2 ∧
      lookupRec rs2 r.id = some r ∧
      (∀ j, j ≠ r.id → lookupRec rs2 j = lookupRec rs j) ∧
      rs2.map rowTSV =
        rs.map (fun x => if x.id = r.id then rowTSV r else rowTSV x) := by
  refine ⟨rs.map (fun x => if x.id = r.id then r else x), ?_, ?_, ?_, ?_⟩
  · unfold dbUpdate
    rw [if_pos hmem]
  · exact find?_replace_self rs r hmem
  · exact fun j hj => find?_replace_other rs r hj
  · rw [List.map_map]
    apply List.map_congr_left
    intro x _
    by_cases hx : x.id = r.id
    · simp [hx]
    · simp [hx]

/-- Claim C10 counterexample: assigning the `id` field of one member to
the id of another existing member overwrites that other member's record
(its url, public_url and status become the first member's). -/
theorem c10_counterexample :
    setMemberId
        [⟨"aaaaaa".toList, "http://u1/".toList, none, ALIVE⟩,
         ⟨"bbbbbb".toList, "http://u2/".toList, none, ALIVE⟩]
        ⟨"aaaaaa".toList, "http://u1/".toList, none, ALIVE⟩ "bbbbbb".toList =
      .ok [⟨"aaaaaa".toList, "http://u1/".toList, none, ALIVE⟩,
           ⟨"bbbbbb".toList, "http://u1/".toList, none, ALIVE⟩] ∧
    "bbbbbb".toList ≠ "aaaaaa".toList ∧
    lookupRec [⟨"aaaaaa".toList, "http://u1/".toList, none, ALIVE⟩,
           ⟨"bbbbbb".toList, "http://u1/".toList, none, ALIVE⟩] "bbbbbb".toList ≠
      some ⟨"bbbbbb".toList, "http://u2/".toList, none, ALIVE⟩ := by
  decide

/-- Claim C10 (amended): a setter that leaves the member's id unchanged
(`url`, `public_url`, `status`) changes only that member's record: every
other id keeps all four fields, both in the in-memory map and among the
flushed TSV rows.  (Assigning the `id` field to an existing other id
instead overwrites that member's record; to a fresh id it raises
KeyError.) -/
theorem c10_setter_frame (rs : List MemberRec) (m : MemberRec)
    (vu vs : Str) (vp : Option Str) (hmem : m.id ∈ rs.map MemberRec.id) :
    (∃ rs2, setMemberUrl rs m vu = .ok rs2 ∧
      lookupRec rs2 m.id = some { m with url := vu } ∧
      (∀ j, j ≠ m.id → lookupRec rs2 j = lookupRec rs j) ∧
      rs2.map rowTSV =
        rs.map (fun x => if x.id = m.id then rowTSV { m with url := vu }
          else rowTSV x)) ∧
    (∃ rs2, setMemberPublicUrl rs m vp = .ok rs2 ∧
      lookupRec rs2 m.id = some { m with publicUrl := vp } ∧
      (∀ j, j ≠ m.id → lookupRec rs2 j = lookupRec rs j) ∧
      rs2.map rowTSV =
        rs.map (fun x => if x.id = m.id then rowTSV { m with publicUrl := vp }
          else rowTSV x)) ∧
    (∃ rs2, setMemberStatus rs m vs = .ok rs2 ∧
      lookupRec rs2 m.id = some { m with status := vs } ∧
      (∀ j, j ≠ m.id → lookupRec rs2 j = lookupRec rs j) ∧
      rs2.map rowTSV =
        rs.map (fun x => if x.id = m.id then rowTSV { m with status := vs }
          else rowTSV x)) :=
  ⟨dbUpdate_ok_frame rs { m with url := vu } hmem,
   dbUpdate_ok_frame rs { m with publicUrl := vp } hmem,
   dbUpdate_ok_frame rs { m with status := vs } hmem⟩

theorem c10_setter_frame_witness :
    ("aaaaaa".toList ∈
      ([⟨"aaaaaa".toList, "http://u1/".toList, none, NEW⟩,
        ⟨"bbbbbb".toList, "http://u2/".toList, none, ALIVE⟩].map MemberRec.id)) ∧
    ∃ rs2, setMemberStatus
        [⟨"aaaaaa".toList, "http://u1/".toList, none, NEW⟩,
         ⟨"bbbbbb".toList, "http://u2/".toList, none, ALIVE⟩]
        ⟨"aaaaaa".toList, "http://u1/".toList, none, NEW⟩ ALIVE = .ok rs2 ∧
      lookupRec rs2 "aaaaaa".toList =
        some ⟨"aaaaaa".toList, "http://u1/".toList, none, ALIVE⟩ ∧
      (∀ j, j ≠ "aaaaaa".toList → lookupRec rs2 j =
        lookupRec [⟨"aaaaaa".toList, "http://u1/".toList, none, NEW⟩,
          ⟨"bbbbbb".toList, "http://u2/".toList, none, ALIVE⟩] j) ∧
      rs2.map rowTSV =
        [⟨"aaaaaa".toList, "http://u1/".toList, none, NEW⟩,
         ⟨"bbbbbb".toList, "http://u2/".toList, none, ALIVE⟩].map
          (fun x => if x.id = "aaaaaa".toList then
            rowTSV ⟨"aaaaaa".toList, "http://u1/".toList, none, ALIVE⟩
          else rowTSV x) :=
  ⟨by decide,
    (c10_setter_frame
      [⟨"aaaaaa".toList, "http://u1/".toList, none, NEW⟩,
       ⟨"bbbbbb".toList, "http://u2/".toList, none, ALIVE⟩]
      ⟨"aaaaaa".toList, "http://u1/".toList, none, NEW⟩
      "http://u9/".toList ALIVE none (by decide)).2.2⟩

/-! ## Heartbeat initialization (C2) -/

inductive PyExc
  | indexError
deriving DecidableEq

/-- `random.choice(seq)`: IndexError on an empty sequence, otherwise some
element (the oracle `k` picks which). -/
def randomChoice {α : Type} (l : List α) (k : Nat) : Except PyExc α :=
  match l with
  | [] => .error .indexError
  | a :: rest => .ok ((a :: rest).getD (k % (a :: rest).length) a)

/-- The initialization block of `track_members` for one member (run both
for a NEW member and for a resurrected DEAD one):

    node.mkfs()
    try:
        donor = random.choice(db.filter(status=ALIVE))
        node.sync(donor.url)
        node.cd(HttpDataNode(donor.url).stat('.')[0])
    except IndexError as e:
        continue
    finally:
        m.status = ALIVE

Python runs the `finally` clause before the `continue` of the `except`
clause, so `m.status = ALIVE` executes on every path; only donor
selection can raise IndexError here (the HTTP calls are modelled as
succeeding).  Returns the member record after the block and whether the
loop body continued early. -/
def initMemberBlock (aliveMembers : List MemberRec) (k : Nat) (m : MemberRec) :
    MemberRec × Bool :=
  match randomChoice aliveMembers k with
  | .error .indexError => ({ m with status := ALIVE }, true)
  | .ok _ => ({ m with status := ALIVE }, false)

/-- Claim C2: with no ALIVE donor, the initialization pass takes the
IndexError/continue path, yet the `finally` clause has already set the
member's status to ALIVE — the status is not left unchanged. -/
theorem c2_no_donor_still_marks_alive :
    (initMemberBlock [] 0
      ⟨"abc123".toList, "http://10.0.0.5:8180/".toList, none, NEW⟩).2 = true ∧
    (initMemberBlock [] 0
      ⟨"abc123".toList, "http://10.0.0.5:8180/".toList, none, NEW⟩).1.status =
      ALIVE ∧
    ALIVE ≠ NEW := by
  decide

/-! ## Name-node fan-out (C3) -/

inductive NetErr
  | peerUnreachable
deriving DecidableEq

/-- The fan-out loop of every NameNode mutation (`mkfs`, `cd`, `mkdir`,
`rmdir`, `touch`, `tee`, `rm`, `cp`, `mv`):

    nodes = self._db.filter(status=ALIVE)
    for node in nodes:
        HttpDataNode(node.url).tee(path, data)

There is no try/except around the call, so an exception propagates and
ends the loop.  `call` gives each member's outcome; the result is the
list of members on which the operation was invoked, in order, and the
final outcome. -/
def fanOut (nodes : List MemberRec) (call : MemberRec → Except NetErr Unit) :
    List MemberRec × Except NetErr Unit :=
  match nodes with
  | [] => ([], .ok ())
  | n :: rest =>
    match call n with
    | .ok _ => (n :: (fanOut rest call).1, (fanOut rest call).2)
    | .error e => ([n], .error e)

def c3node1 : MemberRec := ⟨"aaaaaa".toList, "http://n1/".toList, none, ALIVE⟩
def c3node2 : MemberRec := ⟨"bbbbbb".toList, "http://n2/".toList, none, ALIVE⟩

def c3call : MemberRec → Except NetErr Unit :=
  fun n => if n.id = "aaaaaa".toList then .error .peerUnreachable else .ok ()

/-- Claim C3 counterexample: when the call to the first ALIVE member
fails, the second member is never invoked — the fan-out is aborted. -/
theorem c3_counterexample :
    c3call c3node1 = .error .peerUnreachable ∧
    fanOut [c3node1, c3node2] c3call = ([c3node1], .error .peerUnreachable) ∧
    c3node2 ∉ (fanOut [c3node1, c3node2] c3call).1 := by
  decide

/-- Claim C3 (amended): a member failure aborts the fan-out.  The
operation is invoked on members in snapshot order only up to and
including the first failing member, whose error propagates to the
caller; when every call succeeds, all members are invoked. -/
theorem c3_fanout_aborts_on_failure :
    (∀ (nodes : List MemberRec) (call : MemberRec → Except NetErr Unit),
      (∀ n ∈ nodes, call n = .ok ()) → fanOut nodes call = (nodes, .ok ())) ∧
    (∀ (pre post : List MemberRec) (bad : MemberRec)
        (call : MemberRec → Except NetErr Unit) (e : NetErr),
      (∀ n ∈ pre, call n = .ok ()) → call bad = .error e →
      fanOut (pre ++ bad :: post) call = (pre ++ [bad], .error e)) := by
  constructor
  · intro nodes call hok
    induction nodes with
    | nil => rfl
    | cons n rest ih =>
      show (match call n with
        | .ok _ => (n :: (fanOut rest call).1, (fanOut rest call).2)
        | .error e => ([n], .error e)) = (n :: rest, .ok ())
      rw [hok n (List.mem_cons_self _ _),
        ih (fun x hx => hok x (List.mem_cons.mpr (Or.inr hx)))]
  · intro pre post bad call e hok hbad
    induction pre with
    | nil =>
      show (match call bad with
        | .ok _ => (bad :: (fanOut post call).1, (fanOut post call).2)
        | .error e => ([bad], .error e)) = ([bad], .error e)
      rw [hbad]
    | cons n rest ih =>
      show (match call n with
        | .ok _ => (n :: (fanOut (rest ++ bad :: post) call).1,
            (fanOut (rest ++ bad :: post) call).2)
        | .error e => ([n], .error e)) = (n :: (rest ++ [bad]), .error e)
      rw [hok n (List.mem_cons_self _ _),
        ih (fun x hx => hok x (List.mem_cons.mpr (Or.inr hx)))]

theorem c3_fanout_aborts_on_failure_witness :
    fanOut ([c3node2] ++ c3node1 :: [c3node2]) c3call =
      ([c3node2] ++ [c3node1], .error .peerUnreachable) ∧
    fanOut [c3node2] c3call = ([c3node2], .ok ()) :=
  ⟨c3_fanout_aborts_on_failure.2 [c3node2] [c3node2] c3node1 c3call
      .peerUnreachable (by decide) (by decide),
    c3_fanout_aborts_on_failure.1 [c3node2] c3call (by decide)⟩

/-! ## DataNode.leave_namespace (C7) -/

inductive LeaveErr
  | commandErrorNotMember
  | noneUrlTypeError
  | relativeUrlValueError
deriving DecidableEq

/-- `DataNode.leave_namespace`:

    if self._namenode_url:
        raise CommandError(
            'Not a member of namespace'
        )
    try:
        urlopen(urljoin(self._namenode_url, '/nodes/leave')).close()
    except (URLError, HTTPError):
        print("Failed to notify namenode. Still leaving!", ...)
    self._namenode_url = None

The guard is inverted: a set (truthy) `_namenode_url` raises CommandError
before anything else runs.  When it is unset, `urljoin(None, ...)` raises
TypeError (or, for the empty string, `urlopen` of a relative URL raises
ValueError), neither of which the URLError handler catches.  On a
successful run the new `_namenode_url` (None) would be returned. -/
def leaveNamespace (namenodeUrl : Option Str) : Except LeaveErr (Option Str) :=
  match namenodeUrl with
  | some s =>
    if s ≠ [] then .error .commandErrorNotMember
    else .error .relativeUrlValueError
  | none => .error .noneUrlTypeError

/-- Claim C7: a data node that is a member (remembered namenode_url set)
gets `CommandError('Not a member of namespace')` from `leave_namespace`;
the local state is never cleared and no execution returns without
error. -/
theorem c7_leave_raises_for_member :
    leaveNamespace (some "http://nn:8180/".toList) =
      .error .commandErrorNotMember ∧
    ∀ u, ∃ e, leaveNamespace u = .error e := by
  constructor
  · decide
  · intro u
    cases u with
    | none => exact ⟨.noneUrlTypeError, rfl⟩
    | some s =>
      by_cases hs : s = []
      · exact ⟨.relativeUrlValueError, by simp [leaveNamespace, hs]⟩
      · exact ⟨.commandErrorNotMember, by simp [leaveNamespace, hs]⟩

end DFS
